import Mathlib

/-!
Verification development for the option-pricing / reconciliation engine.

The Python sources are embedded shallowly:

* Expiry dates are represented by their day number (an integer count of days
  since a fixed epoch); `utils.convert_future_name_to_date` is modelled as
  having already been applied, so a known future carries its instrument name,
  its expiry day number, and the mark price the venue would return for it
  (`none` models a failed fetch, i.e. `get_underlying_price` returning `None`).
* Python floats are modelled by rationals; the IEEE special values produced by
  numpy (`inf`, `-inf`, `nan`) are modelled explicitly by the `NpVal` type
  where the code can reach them.
* A Python function that can raise an exception which its caller catches is
  modelled with `Option`/`Except`: `none`/`.error` stands for the raised
  exception.
-/

/-- One currently-listed dated future: instrument name, expiry date (day
number, the image of `utils.convert_future_name_to_date`), and the mark price
`api_requests.get_underlying_price` would return for its expiry code
(`none` = fetch failed / returned `None`). -/
structure Future where
  name : String
  date : ℤ
  price : Option ℚ
deriving DecidableEq

/-- Comparison used to sort the futures curve in
`pricing.create_synthetic_future_price` (`existing_dates.sort(key=lambda x: x[1])`). -/
def dateLe (a b : Future) : Prop := a.date ≤ b.date

instance : DecidableRel dateLe := fun a b => inferInstanceAs (Decidable (a.date ≤ b.date))

/-- Sorting of the futures curve by expiry date, ascending.  Python's
`list.sort` is a stable comparison sort; `List.insertionSort` with a
non-strict comparison is stable as well, hence a faithful model. -/
def sortByDate (futures : List Future) : List Future :=
  List.insertionSort dateLe futures

/-- The scan of the sorted curve performed by the `for i in range(1, len(...))`
loop in `create_synthetic_future_price` once both extrapolation tests have
failed: walking adjacent pairs, it returns the first pair whose second member
has `existing_dates[i][1] > target_date`; if no iteration takes a branch the
Python loop ends with the pair variables unassigned, which the later read
turns into an `UnboundLocalError` — modelled by `none`. -/
def scanPairs (target : ℤ) : Future → List Future → Option (Future × Future)
  | _, [] => none
  | prev, cur :: rest =>
    if target < cur.date then some (prev, cur) else scanPairs target cur rest

/-- The last two elements of a list (the `existing_dates[-2]`,
`existing_dates[-1]` pair used by the long-end extrapolation branch);
`none` when the list has fewer than two elements. -/
def lastTwo : List Future → Option (Future × Future)
  | [a, b] => some (a, b)
  | _ :: b :: c :: rest => lastTwo (b :: c :: rest)
  | _ => none

/-- The pair-selection loop of `create_synthetic_future_price` (source lines
117-138).  The two extrapolation tests in the Python loop body do not depend
on the loop index, and the loop breaks on the first test taken, so they are
checked once here before the adjacent-pair scan; a list of fewer than two
futures makes `range(1, len(existing_dates))` empty, so nothing is ever
assigned (`none`). -/
def findSurrounding (target : ℤ) : List Future → Option (Future × Future)
  | f0 :: f1 :: rest =>
    if target < f0.date then
      some (f0, f1)
    else
      match lastTwo (f0 :: f1 :: rest) with
      | some (p, l) =>
        if l.date < target then some (p, l)
        else scanPairs target f0 (f1 :: rest)
      | none => none
  | _ => none

/-- The tail of `create_synthetic_future_price` (source lines 140-151): fetch
the two surrounding prices (a `None` response makes the later arithmetic raise
`TypeError`), compute the day differences, and apply the linear
interpolation/extrapolation formula (`days(target-prev)/days(next-prev)` with
a zero denominator raises `ZeroDivisionError`).  All the exceptions escape to
`price_option`, which catches them; they are modelled by `none`. -/
def pairPrice (target : ℤ) (prev next : Future) : Option ℚ :=
  match prev.price, next.price with
  | some pp, some np =>
    if next.date = prev.date then none
    else some (pp + ((target - prev.date : ℤ) : ℚ) / ((next.date - prev.date : ℤ) : ℚ) * (np - pp))
  | _, _ => none

/-- `pricing.create_synthetic_future_price`: sort the known futures by expiry
date, pick the surrounding pair, and blend their prices linearly over calendar
days.  `none` models any exception escaping the function. -/
def create_synthetic_future_price (target : ℤ) (existing_futures : List Future) : Option ℚ :=
  match findSurrounding target (sortByDate existing_futures) with
  | none => none
  | some (prev, next) => pairPrice target prev next

/-- The linear time-weighting formula exactly as the specification states it:
`price = prev.price + (days(target − prev) / days(next − prev)) * (next.price − prev.price)`. -/
def linearBlend (target pd : ℤ) (pp : ℚ) (nd : ℤ) (np : ℚ) : ℚ :=
  pp + ((target - pd : ℤ) : ℚ) / ((nd - pd : ℤ) : ℚ) * (np - pp)

/- Helper lemmas about the pair-selection loop. -/

/-- The head of a list that is pairwise strictly increasing in date is minimal. -/
theorem pairwise_head_le {l : List Future} {c k : Future}
    (hp : List.Pairwise (fun a b => a.date < b.date) (c :: l)) (hk : k ∈ c :: l) :
    c.date ≤ k.date := by
  rcases List.mem_cons.mp hk with h | h
  · exact le_of_eq (congrArg Future.date h.symm)
  · exact le_of_lt ((List.pairwise_cons.mp hp).1 k h)

/-- An element computed by `getLast?` is a member of the list. -/
theorem mem_of_getLast_eq :
    ∀ (l : List Future) (a : Future), l.getLast? = some a → a ∈ l
  | [], a, h => by cases h
  | [x], a, h => by
    simp only [List.getLast?_singleton, Option.some.injEq] at h
    exact h ▸ List.mem_singleton_self x
  | x :: y :: t, a, h => by
    rw [List.getLast?_cons_cons] at h
    exact List.mem_cons_of_mem x (mem_of_getLast_eq (y :: t) a h)

/-- Every member of a list that is pairwise strictly increasing in date is
bounded by its last element. -/
theorem pairwise_le_getLast :
    ∀ {l : List Future} {b : Future},
      List.Pairwise (fun a b => a.date < b.date) l → l.getLast? = some b →
      ∀ a ∈ l, a.date ≤ b.date
  | [], _, _, hb, _, ha => by cases ha
  | [x], b, _, hb, a, ha => by
    simp only [List.getLast?_singleton, Option.some.injEq] at hb
    rcases List.mem_singleton.mp ha with rfl
    exact le_of_eq (congrArg Future.date hb)
  | x :: y :: t, b, hp, hb, a, ha => by
    rw [List.getLast?_cons_cons] at hb
    rcases List.mem_cons.mp ha with rfl | ha
    · have hbmem : b ∈ y :: t := mem_of_getLast_eq _ _ hb
      exact le_of_lt ((List.pairwise_cons.mp hp).1 b hbmem)
    · exact pairwise_le_getLast (List.pairwise_cons.mp hp).2 hb a ha

/-- When no remaining date exceeds the target, the Python loop ends without
assigning a surrounding pair. -/
theorem scanPairs_none {target : ℤ} :
    ∀ (k : Future) (l : List Future),
      (∀ c ∈ l, ¬ target < c.date) → scanPairs target k l = none
  | _, [], _ => rfl
  | k, c :: rest, h => by
    rw [scanPairs, if_neg (h c (List.mem_cons_self c rest))]
    exact scanPairs_none c rest fun d hd => h d (List.mem_cons_of_mem c hd)

/-- When the target lies strictly before the last known date and at or after
the date carried into the scan, the scan returns an adjacent pair that
brackets the target from the left (inclusive) and the right (strict). -/
theorem scanPairs_bracket {target : ℤ} :
    ∀ (k : Future) (l : List Future) (lf : Future),
      k.date ≤ target → (k :: l).getLast? = some lf → target < lf.date →
      ∃ prev next l1 l2, k :: l = l1 ++ prev :: next :: l2 ∧ prev.date ≤ target ∧
        target < next.date ∧ scanPairs target k l = some (prev, next)
  | k, [], lf, hk, hlast, hlt => by
    simp only [List.getLast?_singleton, Option.some.injEq] at hlast
    exact absurd (hlast ▸ hlt) (not_lt.mpr hk)
  | k, c :: rest, lf, hk, hlast, hlt => by
    by_cases hc : target < c.date
    · exact ⟨k, c, [], rest, rfl, hk, hc, by rw [scanPairs, if_pos hc]⟩
    · rw [List.getLast?_cons_cons] at hlast
      obtain ⟨prev, next, l1, l2, hdec, h1, h2, h3⟩ :=
        scanPairs_bracket c rest lf (not_lt.mp hc) hlast hlt
      exact ⟨prev, next, k :: l1, l2, by rw [List.cons_append, hdec],
        h1, h2, by rw [scanPairs, if_neg hc]; exact h3⟩

/-- `lastTwo` succeeds on any list with at least two elements. -/
theorem lastTwo_cons_cons :
    ∀ (rest : List Future) (f0 f1 : Future), ∃ p, lastTwo (f0 :: f1 :: rest) = some p
  | [], f0, f1 => ⟨(f0, f1), rfl⟩
  | c :: rest, f0, f1 => by
    obtain ⟨p, hp⟩ := lastTwo_cons_cons rest f1 c
    exact ⟨p, by rw [lastTwo]; exact hp⟩

/-- A successful `lastTwo` returns exactly the final two elements. -/
theorem lastTwo_decomp :
    ∀ (l : List Future) (a b : Future), lastTwo l = some (a, b) → ∃ l1, l = l1 ++ [a, b]
  | [], a, b, h => by cases h
  | [x], a, b, h => by cases h
  | [x, y], a, b, h => by
    rw [lastTwo] at h
    injection h with h1
    injection h1 with h2 h3
    exact ⟨[], by subst h2 h3; rfl⟩
  | x :: y :: z :: t, a, b, h => by
    rw [lastTwo] at h
    obtain ⟨l1, hl1⟩ := lastTwo_decomp (y :: z :: t) a b h
    exact ⟨x :: l1, by rw [List.cons_append, ← hl1]⟩

/-- The last element of `l1 ++ [a, b]` is `b`. -/
theorem getLast_append_pair (l1 : List Future) (a b : Future) :
    (l1 ++ [a, b]).getLast? = some b := by
  have : l1 ++ [a, b] = (l1 ++ [a]) ++ [b] := by simp
  rw [this, List.getLast?_concat]

/-- Adjacent elements of a pairwise strictly-date-increasing list are strictly
ordered. -/
theorem pairwise_adjacent {l l1 l2 : List Future} {prev next : Future}
    (hp : List.Pairwise (fun a b => a.date < b.date) l)
    (hdec : l = l1 ++ prev :: next :: l2) : prev.date < next.date := by
  subst hdec
  have hsub : List.Sublist [prev, next] (l1 ++ prev :: next :: l2) :=
    (List.Sublist.cons₂ prev (List.Sublist.cons₂ next (List.nil_sublist l2))).trans
      (List.sublist_append_right l1 (prev :: next :: l2))
  have := hp.sublist hsub
  exact (List.pairwise_cons.mp this).1 next (List.mem_singleton_self next)

/-- `pairPrice` with both prices present and distinct dates is the linear
time-weighting formula. -/
theorem pairPrice_eq_blend {target : ℤ} {prev next : Future}
    (hne : prev.date ≠ next.date) (hp : prev.price.isSome) (hn : next.price.isSome) :
    pairPrice target prev next
      = some (linearBlend target prev.date (prev.price.getD 0) next.date (next.price.getD 0)) := by
  obtain ⟨pp, hpp⟩ := Option.isSome_iff_exists.mp hp
  obtain ⟨np, hnp⟩ := Option.isSome_iff_exists.mp hn
  simp only [pairPrice, hpp, hnp, linearBlend, Option.getD_some]
  rw [if_neg (show ¬ next.date = prev.date from fun h => hne h.symm)]


/-- A two-point demonstration curve: futures expiring 10 and 20 days out
(day 0 = now), priced 100000 and 101000 — the scenario of §8 of the spec. -/
def demoCurve : List Future :=
  [⟨"BTC-27JUN25", 10, some 100000⟩, ⟨"BTC-25JUL25", 20, some 101000⟩]

/-- C1 (amended): with at least two known dated futures, sorted strictly
ascending by expiry date, the resolver extrapolates from the first two futures
when the target is before the earliest date, from the last two when it is
after the latest date, and interpolates on the adjacent bracketing pair with
`prev.date ≤ target < next.date` otherwise — except that a target equal to
the latest known date leaves the loop without a surrounding pair and the
resolution fails (`none`), instead of using the final bracketing pair as the
original claim states. -/
theorem create_synthetic_future_price_branches
    (futures : List Future) (f0 f1 lf : Future) (rest : List Future)
    (ta tb tc td : ℤ)
    (hs : sortByDate futures = f0 :: f1 :: rest)
    (hp : List.Pairwise (fun a b => a.date < b.date) (f0 :: f1 :: rest))
    (hlf : (f0 :: f1 :: rest).getLast? = some lf)
    (hprices : ∀ f ∈ futures, f.price.isSome)
    (hta : ta < f0.date) (htb : lf.date < tb)
    (htc1 : f0.date ≤ tc) (htc2 : tc < lf.date) (htd : td = lf.date) :
    create_synthetic_future_price ta futures
        = some (linearBlend ta f0.date (f0.price.getD 0) f1.date (f1.price.getD 0)) ∧
    (∃ p l1, f0 :: f1 :: rest = l1 ++ [p, lf] ∧
      create_synthetic_future_price tb futures
        = some (linearBlend tb p.date (p.price.getD 0) lf.date (lf.price.getD 0))) ∧
    (∃ prev next l1 l2, f0 :: f1 :: rest = l1 ++ prev :: next :: l2 ∧
      prev.date ≤ tc ∧ tc < next.date ∧
      create_synthetic_future_price tc futures
        = some (linearBlend tc prev.date (prev.price.getD 0) next.date (next.price.getD 0))) ∧
    create_synthetic_future_price td futures = none := by
  have hmem : ∀ f ∈ f0 :: f1 :: rest, f.price.isSome := by
    intro f hf
    apply hprices
    have hf2 : f ∈ sortByDate futures := by rw [hs]; exact hf
    exact ((List.perm_insertionSort dateLe futures).mem_iff).mp hf2
  obtain ⟨⟨p, l'⟩, hlt⟩ := lastTwo_cons_cons rest f0 f1
  obtain ⟨l1, hdec⟩ := lastTwo_decomp _ _ _ hlt
  have hl' : l' = lf := by
    have hgl := getLast_append_pair l1 p l'
    rw [← hdec, hlf] at hgl
    injection hgl with hgl
    exact hgl.symm
  rw [hl'] at hlt hdec
  have hf0f1 : f0.date < f1.date :=
    (List.pairwise_cons.mp hp).1 f1 (List.mem_cons_self f1 rest)
  have hf0lf : f0.date < lf.date := by
    have hlfmem : lf ∈ f1 :: rest := by
      rw [List.getLast?_cons_cons] at hlf
      exact mem_of_getLast_eq _ _ hlf
    exact (List.pairwise_cons.mp hp).1 lf hlfmem
  refine ⟨?_, ?_, ?_, ?_⟩
  · have hfs : findSurrounding ta (f0 :: f1 :: rest) = some (f0, f1) := by
      rw [findSurrounding, if_pos hta]
    simp only [create_synthetic_future_price, hs, hfs]
    exact pairPrice_eq_blend (ne_of_lt hf0f1)
      (hmem f0 (List.mem_cons_self f0 _)) (hmem f1 (List.mem_cons_of_mem f0 (List.mem_cons_self f1 _)))
  · have hnlt : ¬ tb < f0.date := not_lt.mpr (le_of_lt (lt_trans hf0lf htb))
    have hfs : findSurrounding tb (f0 :: f1 :: rest) = some (p, lf) := by
      rw [findSurrounding, if_neg hnlt, hlt]
      show (if lf.date < tb then some (p, lf) else scanPairs tb f0 (f1 :: rest)) = some (p, lf)
      rw [if_pos htb]
    have hplf : p.date < lf.date := pairwise_adjacent hp hdec
    have hpmem : p ∈ f0 :: f1 :: rest := by rw [hdec]; simp
    have hlfmem2 : lf ∈ f0 :: f1 :: rest := by rw [hdec]; simp
    refine ⟨p, l1, hdec, ?_⟩
    simp only [create_synthetic_future_price, hs, hfs]
    exact pairPrice_eq_blend (ne_of_lt hplf) (hmem p hpmem) (hmem lf hlfmem2)
  · have hnlt : ¬ tc < f0.date := not_lt.mpr htc1
    obtain ⟨prev, next, l1', l2', hdec', hple, hlt', hscan⟩ :=
      scanPairs_bracket f0 (f1 :: rest) lf htc1 hlf htc2
    have hfs : findSurrounding tc (f0 :: f1 :: rest) = some (prev, next) := by
      rw [findSurrounding, if_neg hnlt, hlt]
      show (if lf.date < tc then some (p, lf) else scanPairs tc f0 (f1 :: rest)) = some (prev, next)
      rw [if_neg (not_lt.mpr (le_of_lt htc2)), hscan]
    have hprevmem : prev ∈ f0 :: f1 :: rest := by rw [hdec']; simp
    have hnextmem : next ∈ f0 :: f1 :: rest := by rw [hdec']; simp
    refine ⟨prev, next, l1', l2', hdec', hple, hlt', ?_⟩
    simp only [create_synthetic_future_price, hs, hfs]
    exact pairPrice_eq_blend (ne_of_lt (lt_of_le_of_lt hple hlt'))
      (hmem prev hprevmem) (hmem next hnextmem)
  · subst htd
    have hnlt : ¬ lf.date < f0.date := not_lt.mpr (le_of_lt hf0lf)
    have hscan : scanPairs lf.date f0 (f1 :: rest) = none := by
      apply scanPairs_none
      intro c hc
      exact not_lt.mpr (pairwise_le_getLast hp hlf c (List.mem_cons_of_mem f0 hc))
    have hfs : findSurrounding lf.date (f0 :: f1 :: rest) = none := by
      rw [findSurrounding, if_neg hnlt, hlt]
      show (if lf.date < lf.date then some (p, lf) else scanPairs lf.date f0 (f1 :: rest)) = none
      rw [if_neg (lt_irrefl lf.date), hscan]
    simp only [create_synthetic_future_price, hs, hfs]

/-- C1 witness: the four branch behaviours evaluated on the two-point demo
curve with targets 5 (short-end extrapolation), 25 (long-end extrapolation),
15 (interpolation) and 20 (the latest known date, failure). -/
theorem create_synthetic_future_price_branches_witness :
    create_synthetic_future_price 5 demoCurve
        = some (linearBlend 5 10 100000 20 101000) ∧
    (∃ p l1, ([⟨"BTC-27JUN25", 10, some 100000⟩, ⟨"BTC-25JUL25", 20, some 101000⟩] : List Future)
        = l1 ++ [p, ⟨"BTC-25JUL25", 20, some 101000⟩] ∧
      create_synthetic_future_price 25 demoCurve
        = some (linearBlend 25 p.date (p.price.getD 0) 20 101000)) ∧
    (∃ prev next l1 l2,
      ([⟨"BTC-27JUN25", 10, some 100000⟩, ⟨"BTC-25JUL25", 20, some 101000⟩] : List Future)
          = l1 ++ prev :: next :: l2 ∧
      prev.date ≤ 15 ∧ (15 : ℤ) < next.date ∧
      create_synthetic_future_price 15 demoCurve
        = some (linearBlend 15 prev.date (prev.price.getD 0) next.date (next.price.getD 0))) ∧
    create_synthetic_future_price 20 demoCurve = none :=
  create_synthetic_future_price_branches demoCurve
    ⟨"BTC-27JUN25", 10, some 100000⟩ ⟨"BTC-25JUL25", 20, some 101000⟩
    ⟨"BTC-25JUL25", 20, some 101000⟩ [] 5 25 15 20
    (by norm_num [sortByDate, List.insertionSort, List.orderedInsert, dateLe, demoCurve])
    (by norm_num) rfl (by decide) (by decide) (by decide) (by decide) (by decide) rfl

/-- C1 counterexample: a target expiry equal to the latest known future date
(while not directly listed) sits inside the claimed bracketing range
`prev.date ≤ target.date ≤ next.date`, so the claim demands the linear blend
of the final pair (= 101000); the code instead fails to assign any pair and
resolves no price. -/
theorem create_synthetic_future_price_at_last_date :
    create_synthetic_future_price 20 demoCurve = none ∧
    linearBlend 20 10 100000 20 101000 = 101000 ∧
    create_synthetic_future_price 20 demoCurve ≠ some (linearBlend 20 10 100000 20 101000) := by
  refine ⟨?_, ?_, ?_⟩
  · norm_num [create_synthetic_future_price, sortByDate, List.insertionSort,
      List.orderedInsert, dateLe, findSurrounding, lastTwo, scanPairs, pairPrice, demoCurve]
  · norm_num [linearBlend]
  · have h : create_synthetic_future_price 20 demoCurve = none := by
      norm_num [create_synthetic_future_price, sortByDate, List.insertionSort,
        List.orderedInsert, dateLe, findSurrounding, lastTwo, scanPairs, pairPrice, demoCurve]
    rw [h]
    simp

/-- C6 counterexample: the spec scenario value `100000 + (15/10)*(101000-100000)`
equals 101500, but the code resolves the 15-days-out forward on a 10/20-day
curve to 100500, so the claimed value is wrong. -/
theorem synthetic_scenario_claim_value_wrong :
    create_synthetic_future_price 15 demoCurve = some 100500 ∧
    (100000 + (15 / 10) * (101000 - 100000) : ℚ) = 101500 ∧
    create_synthetic_future_price 15 demoCurve
      ≠ some (100000 + (15 / 10) * (101000 - 100000) : ℚ) := by
  refine ⟨?_, by norm_num, ?_⟩
  · norm_num [create_synthetic_future_price, sortByDate, List.insertionSort,
      List.orderedInsert, dateLe, findSurrounding, lastTwo, scanPairs, pairPrice, demoCurve]
  · norm_num [create_synthetic_future_price, sortByDate, List.insertionSort,
      List.orderedInsert, dateLe, findSurrounding, lastTwo, scanPairs, pairPrice, demoCurve]

/-- On a two-future curve, every target other than the later expiry date
resolves to the two-point linear blend: a target before the earlier date by
the short-end extrapolation branch, a target after the later date by the
long-end extrapolation branch, and a target in between by interpolation
(with two futures, all three branches select the same pair). -/
theorem two_point_create (f0 f1 : Future) (t : ℤ) (hd : f0.date < f1.date)
    (hs : sortByDate [f0, f1] = [f0, f1])
    (h0 : f0.price.isSome) (h1 : f1.price.isSome)
    (hne : t ≠ f1.date) :
    create_synthetic_future_price t [f0, f1]
      = some (linearBlend t f0.date (f0.price.getD 0) f1.date (f1.price.getD 0)) := by
  have hfs : findSurrounding t [f0, f1] = some (f0, f1) := by
    by_cases hlt : t < f0.date
    · rw [findSurrounding, if_pos hlt]
    · rw [findSurrounding, if_neg hlt]
      rw [show lastTwo [f0, f1] = some (f0, f1) from rfl]
      show (if f1.date < t then some (f0, f1) else scanPairs t f0 [f1]) = some (f0, f1)
      by_cases hgt : f1.date < t
      · rw [if_pos hgt]
      · rw [if_neg hgt, scanPairs, if_pos (by omega : t < f1.date)]
  simp only [create_synthetic_future_price, hs, hfs]
  exact pairPrice_eq_blend (ne_of_lt hd) h0 h1

/-- C6 (amended): on the 10/20-day curve priced 100000/101000, a forward 15
days out resolves by the interpolation branch to
`100000 + ((15-10)/(20-10))*(101000-100000) = 100500` (the day differences are
measured from the earlier bracketing future, not as `15/10`); every target
outside [10, 20] days takes an extrapolation branch, applying the same
two-future linear formula (for instance 99500 at 5 days and 101500 at 25
days out). -/
theorem synthetic_scenario_values :
    create_synthetic_future_price 15 demoCurve
        = some (100000 + ((15 - 10 : ℚ) / (20 - 10)) * (101000 - 100000)) ∧
    create_synthetic_future_price 15 demoCurve = some 100500 ∧
    (∀ t : ℤ, t < 10 → create_synthetic_future_price t demoCurve
        = some (linearBlend t 10 100000 20 101000)) ∧
    (∀ t : ℤ, 20 < t → create_synthetic_future_price t demoCurve
        = some (linearBlend t 10 100000 20 101000)) ∧
    create_synthetic_future_price 5 demoCurve = some 99500 ∧
    create_synthetic_future_price 25 demoCurve = some 101500 := by
  have hd : (⟨"BTC-27JUN25", 10, some 100000⟩ : Future).date
      < (⟨"BTC-25JUL25", 20, some 101000⟩ : Future).date := by decide
  have hs : sortByDate [(⟨"BTC-27JUN25", 10, some 100000⟩ : Future),
        ⟨"BTC-25JUL25", 20, some 101000⟩]
      = [⟨"BTC-27JUN25", 10, some 100000⟩, ⟨"BTC-25JUL25", 20, some 101000⟩] := by
    norm_num [sortByDate, List.insertionSort, List.orderedInsert, dateLe]
  refine ⟨?_, ?_, ?_, ?_, ?_, ?_⟩
  · norm_num [create_synthetic_future_price, sortByDate, List.insertionSort,
      List.orderedInsert, dateLe, findSurrounding, lastTwo, scanPairs, pairPrice, demoCurve]
  · norm_num [create_synthetic_future_price, sortByDate, List.insertionSort,
      List.orderedInsert, dateLe, findSurrounding, lastTwo, scanPairs, pairPrice, demoCurve]
  · intro t ht
    exact two_point_create _ _ t hd hs (by decide) (by decide) (show t ≠ (20 : ℤ) by omega)
  · intro t ht
    exact two_point_create _ _ t hd hs (by decide) (by decide) (show t ≠ (20 : ℤ) by omega)
  · norm_num [create_synthetic_future_price, sortByDate, List.insertionSort,
      List.orderedInsert, dateLe, findSurrounding, lastTwo, scanPairs, pairPrice, demoCurve]
  · norm_num [create_synthetic_future_price, sortByDate, List.insertionSort,
      List.orderedInsert, dateLe, findSurrounding, lastTwo, scanPairs, pairPrice, demoCurve]

/-- C6 witness: the extrapolation clauses applied at 5 and 25 days out. -/
theorem synthetic_scenario_values_witness :
    ((5 : ℤ) < 10 ∧ create_synthetic_future_price 5 demoCurve
        = some (linearBlend 5 10 100000 20 101000)) ∧
    ((20 : ℤ) < 25 ∧ create_synthetic_future_price 25 demoCurve
        = some (linearBlend 25 10 100000 20 101000)) :=
  ⟨⟨by decide, synthetic_scenario_values.2.2.1 5 (by decide)⟩,
    ⟨by decide, synthetic_scenario_values.2.2.2.1 25 (by decide)⟩⟩

/-!
The Black-76 evaluator (`pricing.price_black_76`).

The Python function computes with numpy floats.  Numpy arithmetic does not
raise on invalid numeric domains: `np.log` of a non-positive argument returns
`nan` or `-inf` with a warning, and division of a non-zero float by `0.0`
returns a signed infinity.  Only genuine Python-level exceptions (an invalid
`option_type` string, `float / 0.0` in the plain-Python division `F / K`, or a
`None` operand) reach the `except` clause.  `NpVal` models a numpy scalar:
a finite value (a rational; floats are modelled by rationals), `inf`, `-inf`,
or `nan`.  The transcendental collaborators `np.log`, `np.sqrt` and scipy's
`norm.cdf` are irrational-valued, so the model takes them as parameters; every
theorem states only the facts about them it needs, all true of the real
functions.
-/

/-- A numpy float scalar: finite (rational model), `inf`, `-inf` or `nan`. -/
inductive NpVal where
  | num (q : ℚ)
  | pinf
  | ninf
  | nan
deriving DecidableEq

/-- IEEE-754 negation, as numpy implements it. -/
def npNeg : NpVal → NpVal
  | .num q => .num (-q)
  | .pinf => .ninf
  | .ninf => .pinf
  | .nan => .nan

/-- IEEE-754 addition, as numpy implements it (no exceptions; `inf + -inf`
is `nan`). -/
def npAdd : NpVal → NpVal → NpVal
  | .nan, _ => .nan
  | _, .nan => .nan
  | .num a, .num b => .num (a + b)
  | .num _, .pinf => .pinf
  | .pinf, .num _ => .pinf
  | .num _, .ninf => .ninf
  | .ninf, .num _ => .ninf
  | .pinf, .pinf => .pinf
  | .ninf, .ninf => .ninf
  | .pinf, .ninf => .nan
  | .ninf, .pinf => .nan

/-- IEEE-754 subtraction: `a - b = a + (-b)` exactly. -/
def npSub (a b : NpVal) : NpVal := npAdd a (npNeg b)

/-- IEEE-754 multiplication, as numpy implements it (`inf * 0` is `nan`). -/
def npMul : NpVal → NpVal → NpVal
  | .nan, _ => .nan
  | _, .nan => .nan
  | .num a, .num b => .num (a * b)
  | .num a, .pinf => if 0 < a then .pinf else if a < 0 then .ninf else .nan
  | .pinf, .num a => if 0 < a then .pinf else if a < 0 then .ninf else .nan
  | .num a, .ninf => if 0 < a then .ninf else if a < 0 then .pinf else .nan
  | .ninf, .num a => if 0 < a then .ninf else if a < 0 then .pinf else .nan
  | .pinf, .pinf => .pinf
  | .ninf, .ninf => .pinf
  | .pinf, .ninf => .ninf
  | .ninf, .pinf => .ninf

/-- IEEE-754 division, as numpy implements it: a non-zero finite numerator over
zero gives a signed infinity with a `RuntimeWarning`, not an exception; `0/0`
gives `nan`.  (The model has no signed zero; a zero divisor is treated as
`+0`, which is the only way the embedded code produces one.) -/
def npDiv : NpVal → NpVal → NpVal
  | .nan, _ => .nan
  | _, .nan => .nan
  | .num a, .num b =>
    if b = 0 then (if 0 < a then .pinf else if a < 0 then .ninf else .nan)
    else .num (a / b)
  | .num _, .pinf => .num 0
  | .num _, .ninf => .num 0
  | .pinf, .num b => if 0 ≤ b then .pinf else .ninf
  | .ninf, .num b => if 0 ≤ b then .ninf else .pinf
  | .pinf, .pinf => .nan
  | .pinf, .ninf => .nan
  | .ninf, .pinf => .nan
  | .ninf, .ninf => .nan

/-- Option kind; the source checks the string is `"call"` or `"put"` and
raises otherwise, so a value of this type is a validated kind. -/
inductive OptKind where
  | call
  | put
deriving DecidableEq

/-- `pricing.price_black_76`, parameterised by the numpy/scipy collaborators
`np.log`, `np.sqrt` (on the interesting inputs both applied to finite
arguments, so they are functions of a rational) and `norm.cdf` (applied to a
possibly non-finite `d1`/`d2`).  The plain-Python division `F / K` raises
`ZeroDivisionError` when `K = 0`, which the except clause catches (`none`);
every other step is numpy arithmetic and never raises.  The discount factor
`np.exp(-0 * T)` is exactly `1.0` in IEEE arithmetic and is modelled by the
literal `num 1`. -/
def price_black_76 (log sqrt : ℚ → NpVal) (cdf : NpVal → NpVal)
    (F K T iv : ℚ) (kind : OptKind) : Option NpVal :=
  if K = 0 then none
  else
    let d1 := npDiv (npAdd (log (F / K)) (.num (1/2 * iv ^ 2 * T))) (npMul (.num iv) (sqrt T))
    let d2 := npSub d1 (npMul (.num iv) (sqrt T))
    match kind with
    | .call => some (npMul (.num 1) (npSub (npMul (.num F) (cdf d1)) (npMul (.num K) (cdf d2))))
    | .put => some (npMul (.num 1) (npSub (npMul (.num K) (cdf (npNeg d2))) (npMul (.num F) (cdf (npNeg d1)))))

/-- C2: with volatility `iv = 0` (an invalid numeric domain the claim says must
signal a computation failure) and `F = 2, K = 1, T = 1`, the code does not
fail: numpy turns the division by `iv * sqrt(T) = 0` into `d1 = d2 = inf`
(given only that `np.log 2` is some positive finite value and
`np.sqrt 1 = 1`, `norm.cdf inf = 1`), and the call price comes out as the
finite number `F - K = 1`, which the caller records as a genuine price. -/
theorem price_black_76_sigma_zero_yields_number
    (log sqrt : ℚ → NpVal) (cdf : NpVal → NpVal) (L : ℚ)
    (hlog : log 2 = .num L) (hL : 0 < L)
    (hsqrt : sqrt 1 = .num 1) (hcdf : cdf .pinf = .num 1) :
    price_black_76 log sqrt cdf 2 1 1 0 .call = some (.num 1) := by
  have hFK : (2 : ℚ) / 1 = 2 := by norm_num
  rw [price_black_76, if_neg (by norm_num : ¬ (1 : ℚ) = 0)]
  simp only [hFK, hlog, hsqrt]
  have h0 : (1/2 * (0:ℚ) ^ 2 * 1) = 0 := by norm_num
  rw [h0]
  have hnum : npAdd (.num L) (.num 0) = .num L := by simp [npAdd]
  have hden : npMul (.num 0) (.num 1) = .num 0 := by
    simp [npMul]
  rw [hnum, hden]
  have hd1 : npDiv (.num L) (.num 0) = .pinf := by
    rw [npDiv, if_pos rfl, if_pos hL]
  rw [hd1]
  have hd2 : npSub .pinf (.num 0) = .pinf := by
    simp [npSub, npNeg, npAdd]
  rw [hd2, hcdf]
  have h2 : npMul (.num 2) (.num 1) = .num 2 := by simp [npMul]
  have h1 : npMul (.num 1) (.num 1) = .num 1 := by simp [npMul]
  rw [h2, h1]
  have hsub : npSub (.num 2) (.num 1) = .num 1 := by
    simp [npSub, npNeg, npAdd]
    norm_num
  rw [hsub]
  simp [npMul]

/-- C2 witness: the hypotheses of the σ = 0 evaluation hold of concrete
collaborator stand-ins, and applying the theorem yields the numeric price. -/
theorem price_black_76_sigma_zero_yields_number_witness :
    (fun _ : ℚ => NpVal.num 1) 2 = NpVal.num 1 ∧ (0 : ℚ) < 1 ∧
    (fun _ : ℚ => NpVal.num 1) 1 = NpVal.num 1 ∧
    (fun _ : NpVal => NpVal.num 1) NpVal.pinf = NpVal.num 1 ∧
    price_black_76 (fun _ => .num 1) (fun _ => .num 1) (fun _ => .num 1) 2 1 1 0 .call
      = some (.num 1) :=
  ⟨rfl, by norm_num, rfl, rfl,
    price_black_76_sigma_zero_yields_number (fun _ => .num 1) (fun _ => .num 1)
      (fun _ => .num 1) 1 rfl (by norm_num) rfl rfl⟩

/-- C4: for `F, K, T, iv > 0` the call and put legs of the embedded
`price_black_76` — with the collaborators behaving as the real `np.log`,
`np.sqrt` and `norm.cdf` do on these inputs: the log of a positive ratio is
some finite value, the square root of a positive time is positive finite, and
the normal CDF is finite-valued with `cdf x + cdf (-x) = 1` — both return
finite prices whose difference is exactly `F - K` (undiscounted put-call
parity). -/
theorem price_black_76_put_call_parity
    (log sqrt : ℚ → NpVal) (cdf : NpVal → NpVal) (c : ℚ → ℚ) (L s : ℚ)
    (F K T iv : ℚ)
    (hF : 0 < F) (hK : 0 < K) (hT : 0 < T) (hiv : 0 < iv)
    (hlog : log (F / K) = .num L)
    (hsqrt : sqrt T = .num s) (hs : 0 < s)
    (hcdf : ∀ x : ℚ, cdf (.num x) = .num (c x))
    (hsym : ∀ x : ℚ, c x + c (-x) = 1) :
    ∃ cp pp, price_black_76 log sqrt cdf F K T iv .call = some (.num cp) ∧
      price_black_76 log sqrt cdf F K T iv .put = some (.num pp) ∧
      cp - pp = F - K := by
  have hK0 : ¬ K = 0 := ne_of_gt hK
  have hivs : ¬ iv * s = 0 := ne_of_gt (mul_pos hiv hs)
  have e3 : npDiv (.num (L + 1/2 * iv ^ 2 * T)) (.num (iv * s))
      = .num ((L + 1/2 * iv ^ 2 * T) / (iv * s)) := by
    simp only [npDiv]
    rw [if_neg hivs]
  have hcall : price_black_76 log sqrt cdf F K T iv .call
      = some (.num (1 * (F * c ((L + 1/2 * iv ^ 2 * T) / (iv * s))
          + -(K * c ((L + 1/2 * iv ^ 2 * T) / (iv * s) + -(iv * s)))))) := by
    rw [price_black_76, if_neg hK0, hlog, hsqrt]
    show some (npMul (.num 1) (npSub
        (npMul (.num F) (cdf (npDiv (npAdd (.num L) (.num (1/2 * iv ^ 2 * T))) (npMul (.num iv) (.num s)))))
        (npMul (.num K) (cdf (npSub
          (npDiv (npAdd (.num L) (.num (1/2 * iv ^ 2 * T))) (npMul (.num iv) (.num s)))
          (npMul (.num iv) (.num s))))))) = _
    rw [show npAdd (.num L) (.num (1/2 * iv ^ 2 * T)) = .num (L + 1/2 * iv ^ 2 * T) from rfl,
      show npMul (.num iv) (.num s) = .num (iv * s) from rfl, e3,
      show npSub (.num ((L + 1/2 * iv ^ 2 * T) / (iv * s))) (.num (iv * s))
        = .num ((L + 1/2 * iv ^ 2 * T) / (iv * s) + -(iv * s)) from rfl,
      hcdf, hcdf]
    rfl
  have hput : price_black_76 log sqrt cdf F K T iv .put
      = some (.num (1 * (K * c (-((L + 1/2 * iv ^ 2 * T) / (iv * s) + -(iv * s)))
          + -(F * c (-((L + 1/2 * iv ^ 2 * T) / (iv * s))))))) := by
    rw [price_black_76, if_neg hK0, hlog, hsqrt]
    show some (npMul (.num 1) (npSub
        (npMul (.num K) (cdf (npNeg (npSub
          (npDiv (npAdd (.num L) (.num (1/2 * iv ^ 2 * T))) (npMul (.num iv) (.num s)))
          (npMul (.num iv) (.num s))))))
        (npMul (.num F) (cdf (npNeg
          (npDiv (npAdd (.num L) (.num (1/2 * iv ^ 2 * T))) (npMul (.num iv) (.num s)))))))) = _
    rw [show npAdd (.num L) (.num (1/2 * iv ^ 2 * T)) = .num (L + 1/2 * iv ^ 2 * T) from rfl,
      show npMul (.num iv) (.num s) = .num (iv * s) from rfl, e3,
      show npSub (.num ((L + 1/2 * iv ^ 2 * T) / (iv * s))) (.num (iv * s))
        = .num ((L + 1/2 * iv ^ 2 * T) / (iv * s) + -(iv * s)) from rfl,
      show npNeg (.num ((L + 1/2 * iv ^ 2 * T) / (iv * s) + -(iv * s)))
        = .num (-((L + 1/2 * iv ^ 2 * T) / (iv * s) + -(iv * s))) from rfl,
      show npNeg (.num ((L + 1/2 * iv ^ 2 * T) / (iv * s)))
        = .num (-((L + 1/2 * iv ^ 2 * T) / (iv * s))) from rfl,
      hcdf, hcdf]
    rfl
  refine ⟨_, _, hcall, hput, ?_⟩
  have h1 := hsym ((L + 1/2 * iv ^ 2 * T) / (iv * s))
  have h2 := hsym ((L + 1/2 * iv ^ 2 * T) / (iv * s) + -(iv * s))
  linear_combination F * h1 - K * h2

/-- C4 witness: parity instantiated at `F = K = T = iv = 1` with concrete
collaborator stand-ins satisfying the stated facts. -/
theorem price_black_76_put_call_parity_witness :
    (0 : ℚ) < 1 ∧
    (fun _ : ℚ => NpVal.num 0) ((1 : ℚ) / 1) = NpVal.num 0 ∧
    (fun _ : ℚ => NpVal.num 1) (1 : ℚ) = NpVal.num 1 ∧
    (∀ x : ℚ, (fun _ : NpVal => NpVal.num (1/2)) (NpVal.num x) = NpVal.num ((fun _ : ℚ => (1/2 : ℚ)) x)) ∧
    (∀ x : ℚ, (fun _ : ℚ => (1/2 : ℚ)) x + (fun _ : ℚ => (1/2 : ℚ)) (-x) = 1) ∧
    (∃ cp pp,
      price_black_76 (fun _ => .num 0) (fun _ => .num 1) (fun _ => .num (1/2)) 1 1 1 1 .call
        = some (.num cp) ∧
      price_black_76 (fun _ => .num 0) (fun _ => .num 1) (fun _ => .num (1/2)) 1 1 1 1 .put
        = some (.num pp) ∧
      cp - pp = 1 - 1) :=
  ⟨by norm_num, rfl, rfl, fun _ => rfl, fun _ => by norm_num,
    price_black_76_put_call_parity (fun _ => .num 0) (fun _ => .num 1) (fun _ => .num (1/2))
      (fun _ => (1/2 : ℚ)) 0 1 1 1 1 1 (by norm_num) (by norm_num) (by norm_num) (by norm_num)
      rfl rfl (by norm_num) (fun _ => rfl) (fun _ => by norm_num)⟩

/-!
Currency routing (`pricing.price_option`, `api_requests.get_underlying_price`,
`utils.map_currency`).
-/

/-- ASCII lower-casing of one character, as Python `str.lower` acts on the
ASCII instrument names used here. -/
def lowerChar (ch : Char) : Char :=
  if 'A' ≤ ch ∧ ch ≤ 'Z' then Char.ofNat (ch.toNat + 32) else ch

/-- Python `str.lower` on ASCII strings. -/
def lowerStr (s : String) : String := ⟨s.data.map lowerChar⟩

/-- ASCII upper-casing of one character, as Python `str.upper` acts here. -/
def upperChar (ch : Char) : Char :=
  if 'a' ≤ ch ∧ ch ≤ 'z' then Char.ofNat (ch.toNat - 32) else ch

/-- Python `str.upper` on ASCII strings. -/
def upperStr (s : String) : String := ⟨s.data.map upperChar⟩

/-- Does the pattern occur at the head of the character list? -/
def chunkAt : List Char → List Char → Bool
  | [], _ => true
  | _ :: _, [] => false
  | p :: ps, d :: ds => p = d && chunkAt ps ds

/-- Does the pattern occur anywhere in the character list?  Models Python's
`in` on strings. -/
def hasChunk (pat : List Char) : List Char → Bool
  | [] => chunkAt pat []
  | d :: ds => chunkAt pat (d :: ds) || hasChunk pat ds

/-- Python `pat in s` for strings. -/
def strHas (s pat : String) : Bool := hasChunk pat.data s.data

/-- `utils.map_currency`: currencies whose name contains `"USDC"` settle in
the stablecoin-style quote asset `USDC`. -/
def map_currency (currency : String) : String :=
  if strHas currency "USDC" then "USDC" else currency

/-- The fixed whitelist of base currencies whose forwards resolve through the
dated futures curve (`['eth', 'btc', 'paxg_usdc']` in `pricing.price_option`
lines 69 and 74 and `api_requests.get_underlying_price` line 149). -/
def whitelistNames : List String := ["eth", "btc", "paxg_usdc"]

/-- The instrument name `price_option` forms for the forward (source lines
69-72): a perpetual name for currencies outside the whitelist, a dated name
inside it. -/
def futureName (currency expiry_code : String) : String :=
  if lowerStr currency ∉ whitelistNames then currency ++ "-PERPETUAL"
  else currency ++ "-" ++ expiry_code

/-- The instrument name `api_requests.get_underlying_price` puts in its ticker
request (source lines 149-152): the same split. -/
def get_underlying_price_instrument (currency expiry_code : String) : String :=
  if lowerStr currency ∉ whitelistNames then currency ++ "-PERPETUAL"
  else currency ++ "-" ++ expiry_code

/-- How `price_option` resolves the forward price: a direct ticker fetch of a
named instrument, or synthesis from the dated futures curve. -/
inductive ForwardSource where
  | direct (instrument : String)
  | synthetic
deriving DecidableEq

/-- The branch decision of `price_option` lines 74-77: synthesise exactly when
the formed name is not listed and the currency is whitelisted; otherwise fetch
the named instrument directly. -/
def forwardResolution (currency expiry_code : String) (existing_futures : List String) :
    ForwardSource :=
  if futureName currency expiry_code ∉ existing_futures ∧ lowerStr currency ∈ whitelistNames then
    .synthetic
  else .direct (get_underlying_price_instrument currency expiry_code)

/-- `pricing.price_option`.  The validated option kind is `OptKind` (an invalid
string raises and the catch-all returns `None` — not exercised here);
`time_to_expiry` models `utils.convert_expiration_to_years expiry_code`
(`none` = expired or malformed, which makes `price_black_76` raise `TypeError`
internally and return `None`); `target_date` is the day number of
`currency-expiry_code`; `direct_price` models the `get_underlying_price`
response on the direct-fetch branch.  A `none` forward price raises
`ValueError`, caught by the catch-all (`none`). -/
def price_option (log sqrt : ℚ → NpVal) (cdf : NpVal → NpVal)
    (currency expiry_code : String) (strike : ℚ) (kind : OptKind) (iv : ℚ)
    (existing_futures : List Future) (target_date : ℤ)
    (time_to_expiry : Option ℚ) (direct_price : Option ℚ) : Option NpVal :=
  let future_price : Option ℚ :=
    if futureName currency expiry_code ∉ existing_futures.map Future.name ∧
        lowerStr currency ∈ whitelistNames then
      create_synthetic_future_price target_date existing_futures
    else direct_price
  match future_price with
  | none => none
  | some F =>
    match time_to_expiry with
    | none => none
    | some T => price_black_76 log sqrt cdf F strike T iv kind

/-- C8 counterexample: `PAXG_USDC` is settled in a stablecoin-style quote
asset by the code's own test (`map_currency` maps it to `USDC`), yet with its
dated name unlisted its forward resolves through the dated futures curve
(synthetic), not a direct perpetual-name fetch, because `paxg_usdc` is on the
whitelist. -/
theorem paxg_usdc_uses_dated_curve :
    map_currency "PAXG_USDC" = "USDC" ∧
    forwardResolution "PAXG_USDC" "26SEP25" [] = .synthetic ∧
    ∀ instr, forwardResolution "PAXG_USDC" "26SEP25" [] ≠ .direct instr := by
  refine ⟨by decide, by decide, ?_⟩
  intro instr h
  rw [show forwardResolution "PAXG_USDC" "26SEP25" [] = .synthetic from by decide] at h
  exact ForwardSource.noConfusion h

/-- C8 (amended): currencies outside the fixed whitelist
`{eth, btc, paxg_usdc}` always fetch the forward directly under a perpetual
instrument name with no interpolation; a whitelisted currency whose dated name
is not listed resolves through the dated futures curve — and the whitelist,
not stablecoin settlement, is what decides (PAXG_USDC is stablecoin-settled
yet whitelisted). -/
theorem forward_resolution_whitelist_split
    (c1 c2 expiry : String) (existing : List String)
    (h1 : lowerStr c1 ∉ whitelistNames)
    (h2 : lowerStr c2 ∈ whitelistNames)
    (h3 : futureName c2 expiry ∉ existing) :
    forwardResolution c1 expiry existing = .direct (c1 ++ "-PERPETUAL") ∧
    forwardResolution c2 expiry existing = .synthetic := by
  constructor
  · rw [forwardResolution, if_neg (fun h => h1 h.2), get_underlying_price_instrument, if_pos h1]
  · rw [forwardResolution, if_pos ⟨h3, h2⟩]

/-- C8 witness: SOL_USDC (off the whitelist) fetches under its perpetual name;
BTC with an unlisted expiry goes synthetic. -/
theorem forward_resolution_whitelist_split_witness :
    lowerStr "SOL_USDC" ∉ whitelistNames ∧
    lowerStr "BTC" ∈ whitelistNames ∧
    futureName "BTC" "26SEP25" ∉ ([] : List String) ∧
    forwardResolution "SOL_USDC" "26SEP25" [] = .direct ("SOL_USDC" ++ "-PERPETUAL") ∧
    forwardResolution "BTC" "26SEP25" [] = .synthetic :=
  ⟨by decide, by decide, by decide,
    (forward_resolution_whitelist_split "SOL_USDC" "BTC" "26SEP25" []
      (by decide) (by decide) (by decide)).1,
    (forward_resolution_whitelist_split "SOL_USDC" "BTC" "26SEP25" []
      (by decide) (by decide) (by decide)).2⟩

/-- C10: for a whitelisted currency whose requested expiry is not directly
listed, a futures curve with fewer than two dated entries makes the
surrounding-pair loop assign nothing, so synthesis fails, and `price_option`
turns the failure into an absent result (no numeric price), whatever the
other inputs. -/
theorem short_curve_resolution_fails_absent
    (log sqrt : ℚ → NpVal) (cdf : NpVal → NpVal)
    (currency expiry : String) (strike iv : ℚ) (kind : OptKind)
    (futures : List Future) (target_date : ℤ) (tte : Option ℚ) (direct_price : Option ℚ)
    (hw : lowerStr currency ∈ whitelistNames)
    (hnl : futureName currency expiry ∉ futures.map Future.name)
    (hlen : futures.length < 2) :
    create_synthetic_future_price target_date futures = none ∧
    price_option log sqrt cdf currency expiry strike kind iv futures target_date tte direct_price
      = none := by
  have hlen2 : (sortByDate futures).length < 2 := by
    rw [sortByDate, List.length_insertionSort]
    exact hlen
  have hfs : findSurrounding target_date (sortByDate futures) = none := by
    cases h1 : sortByDate futures with
    | nil => rfl
    | cons x t =>
      cases t with
      | nil => rfl
      | cons y t2 =>
        rw [h1] at hlen2
        simp only [List.length_cons] at hlen2
        omega
  have hcreate : create_synthetic_future_price target_date futures = none := by
    simp only [create_synthetic_future_price, hfs]
  refine ⟨hcreate, ?_⟩
  simp only [price_option, if_pos (And.intro hnl hw), hcreate]

/-- C10 witness: BTC with a single-entry curve and an unlisted expiry. -/
theorem short_curve_resolution_fails_absent_witness :
    lowerStr "BTC" ∈ whitelistNames ∧
    futureName "BTC" "26SEP25" ∉ ([⟨"BTC-27JUN25", 40, some 100⟩] : List Future).map Future.name ∧
    ([⟨"BTC-27JUN25", 40, some 100⟩] : List Future).length < 2 ∧
    create_synthetic_future_price 50 [⟨"BTC-27JUN25", 40, some 100⟩] = none ∧
    price_option (fun _ => .nan) (fun _ => .nan) (fun _ => .nan) "BTC" "26SEP25" 1 .call 1
      [⟨"BTC-27JUN25", 40, some 100⟩] 50 (some 1) (some 2) = none :=
  ⟨by decide, by decide, by decide,
    (short_curve_resolution_fails_absent (fun _ => .nan) (fun _ => .nan) (fun _ => .nan)
      "BTC" "26SEP25" 1 1 .call [⟨"BTC-27JUN25", 40, some 100⟩] 50 (some 1) (some 2)
      (by decide) (by decide) (by decide)).1,
    (short_curve_resolution_fails_absent (fun _ => .nan) (fun _ => .nan) (fun _ => .nan)
      "BTC" "26SEP25" 1 1 .call [⟨"BTC-27JUN25", 40, some 100⟩] 50 (some 1) (some 2)
      (by decide) (by decide) (by decide)).2⟩

/-!
The IV curve builder (`pricing.iv_interpolator`).

The Python function sorts the strike → (iv, price) dictionary items by strike
and hands strikes and IVs to scipy's `PchipInterpolator` with
`extrapolate=True`.  The interpolant is a piecewise cubic Hermite spline: knot
positions (strike), knot values (IV) and knot derivatives computed by the
PCHIP rule (weighted harmonic means in the interior, the shape-limited
three-point formula at the edges).  Evaluation at `t` uses the polynomial of
the interval `x_i ≤ t < x_(i+1)`, clamped to the first/last interval outside
the knot range (`extrapolate=True` means the end polynomials are evaluated
rather than an error or `nan` returned).  `PchipInterpolator` raises
`ValueError` when there are fewer than 2 points or the strikes are not
strictly increasing; dictionary keys are unique, so sorting gives strictly
increasing strikes whenever there are at least 2 of them.
-/

/-- One venue option quote, an item of the strike → (mark_iv, mark_price)
dictionary built by `api_requests.get_strike_iv_price_dict`:
`(strike, (iv, price))`. -/
abbrev Sample := ℚ × ℚ × ℚ

/-- Order used by Python's `sorted(strike_iv.items())`: tuples compare
lexicographically, and the keys (strikes) are unique within a dictionary, so
comparison of the strike decides. -/
def sampleLe (a b : Sample) : Prop := a.1 ≤ b.1

instance : DecidableRel sampleLe := fun a b => inferInstanceAs (Decidable (a.1 ≤ b.1))

instance : IsTotal Sample sampleLe := ⟨fun a b => le_total a.1 b.1⟩

instance : IsTrans Sample sampleLe := ⟨fun _ _ _ hab hbc => le_trans hab hbc⟩

/-- `sorted(strike_iv.items())`. -/
def sortSamples (samples : List Sample) : List Sample :=
  List.insertionSort sampleLe samples

/-- One knot of the constructed interpolant: position (strike), value (IV),
and the PCHIP derivative. -/
structure Knot where
  x : ℚ
  y : ℚ
  d : ℚ
deriving DecidableEq

/-- `np.sign` on the rational model of a float. -/
def qsign (q : ℚ) : ℤ :=
  if 0 < q then 1 else if q < 0 then -1 else 0

/-- Scipy's one-sided three-point edge derivative with the two PCHIP shape
limiters (`PchipInterpolator._edge_case`). -/
def edgeD (h0 h1 m0 m1 : ℚ) : ℚ :=
  let d := ((2 * h0 + h1) * m0 - h0 * m1) / (h0 + h1)
  if qsign d ≠ qsign m0 then 0
  else if qsign m0 ≠ qsign m1 ∧ |d| > 3 * |m0| then 3 * m0
  else d

/-- Scipy's interior PCHIP derivative: zero at a local extremum or flat
segment, otherwise the weighted harmonic mean of the two adjacent secant
slopes. -/
def interiorD (h0 h1 m0 m1 : ℚ) : ℚ :=
  if qsign m0 ≠ qsign m1 ∨ m0 = 0 ∨ m1 = 0 then 0
  else
    let w1 := 2 * h1 + h0
    let w2 := h1 + 2 * h0
    (w1 + w2) / (w1 / m0 + w2 / m1)

/-- `PchipInterpolator._find_derivatives`: secant widths `hk`, secant slopes
`mk`; two points give the straight line, otherwise harmonic-mean interior
derivatives flanked by the two edge formulas. -/
def pchipDerivs (xs ys : List ℚ) : List ℚ :=
  let hk := List.zipWith (fun a b => a - b) xs.tail xs
  let mk := List.zipWith (fun a b => a / b) (List.zipWith (fun a b => a - b) ys.tail ys) hk
  match mk with
  | [] => []
  | [m0] => [m0, m0]
  | _ :: _ :: _ =>
    let inner := List.zipWith (fun hp mp => interiorD hp.1 hp.2 mp.1 mp.2)
      (List.zip hk hk.tail) (List.zip mk mk.tail)
    let d0 := edgeD (hk.headD 0) (hk.tail.headD 0) (mk.headD 0) (mk.tail.headD 0)
    let dn := edgeD (hk.reverse.headD 0) (hk.reverse.tail.headD 0)
      (mk.reverse.headD 0) (mk.reverse.tail.headD 0)
    d0 :: inner ++ [dn]

/-- The knot list of the constructed `PchipInterpolator`: sorted strikes as
positions, their IVs as values, the PCHIP derivatives attached. -/
def buildKnots (s : List Sample) : List Knot :=
  List.zipWith (fun (a : Sample) d => (⟨a.1, a.2.1, d⟩ : Knot)) s
    (pchipDerivs (s.map (fun a => a.1)) (s.map (fun a => a.2.1)))

/-- Scipy's strictly-increasing check on the breakpoints. -/
def strictlyInc : List Sample → Bool
  | [] => true
  | [_] => true
  | a :: b :: t => decide (a.1 < b.1) && strictlyInc (b :: t)

/-- `pricing.iv_interpolator`: sort the dictionary items by strike, extract
strikes and IVs, and construct the PCHIP interpolant (its knot list); an
`Except.error` models the `ValueError` scipy raises on degenerate input,
which nothing in the source catches. -/
def iv_interpolator (strike_iv : List Sample) : Except String (List Knot) :=
  let s := sortSamples strike_iv
  if s.length < 2 then .error ("x must contain at least 2 elements.")
  else if strictlyInc s then .ok (buildKnots s)
  else .error ("x must be strictly increasing sequence.")

/-- Evaluation of the cubic Hermite polynomial of the segment from `k0` to
`k1` (scipy stores the same cubic in the power basis; this is its Hermite
basis form, interpolating value and derivative at both segment ends). -/
def hermiteEval (k0 k1 : Knot) (t : ℚ) : ℚ :=
  let h := k1.x - k0.x
  let s := (t - k0.x) / h
  (2 * s ^ 3 - 3 * s ^ 2 + 1) * k0.y + (s ^ 3 - 2 * s ^ 2 + s) * h * k0.d
    + (-2 * s ^ 3 + 3 * s ^ 2) * k1.y + (s ^ 3 - s ^ 2) * h * k1.d

/-- The interval search of `PPoly.__call__` with `extrapolate=True`: evaluate
the polynomial of the segment `k_i.x ≤ t < k_(i+1).x`, the first segment for
`t` below the range, the last for `t` at or above its left end. -/
def evalSegs : Knot → List Knot → ℚ → ℚ
  | k0, [], _ => k0.y
  | k0, [k1], t => hermiteEval k0 k1 t
  | k0, k1 :: k2 :: rest, t =>
    if t < k1.x then hermiteEval k0 k1 t else evalSegs k1 (k2 :: rest) t

/-- Calling the constructed interpolant at a strike. -/
def ivAt (knots : List Knot) (t : ℚ) : ℚ :=
  match knots with
  | [] => 0
  | k0 :: rest => evalSegs k0 rest t

/-- A Hermite segment takes its left value at its left end. -/
theorem hermiteEval_left (k0 k1 : Knot) : hermiteEval k0 k1 k0.x = k0.y := by
  simp only [hermiteEval, sub_self, zero_div]
  ring

/-- A Hermite segment takes its right value at its right end. -/
theorem hermiteEval_right (k0 k1 : Knot) (h : k1.x - k0.x ≠ 0) :
    hermiteEval k0 k1 k1.x = k1.y := by
  simp only [hermiteEval, div_self h]
  ring

/-- The head of a knot list pairwise strictly increasing in position is
minimal. -/
theorem knot_head_le {l : List Knot} {c k : Knot}
    (hp : List.Pairwise (fun a b => a.x < b.x) (c :: l)) (hk : k ∈ c :: l) :
    c.x ≤ k.x := by
  rcases List.mem_cons.mp hk with h | h
  · exact le_of_eq (congrArg Knot.x h.symm)
  · exact le_of_lt ((List.pairwise_cons.mp hp).1 k h)

/-- The interval search evaluates every knot to its stored value. -/
theorem evalSegs_knot :
    ∀ (k0 : Knot) (l : List Knot), List.Pairwise (fun a b => a.x < b.x) (k0 :: l) →
      l ≠ [] → ∀ k ∈ k0 :: l, evalSegs k0 l k.x = k.y
  | _, [], _, hne, _, _ => absurd rfl hne
  | k0, [k1], hp, _, k, hk => by
    rcases List.mem_cons.mp hk with rfl | hk1
    · exact hermiteEval_left k k1
    · rcases List.mem_singleton.mp hk1 with rfl
      have hlt := (List.pairwise_cons.mp hp).1 k (List.mem_cons_self k [])
      exact hermiteEval_right k0 k (sub_ne_zero.mpr (ne_of_gt hlt))
  | k0, k1 :: k2 :: rest, hp, _, k, hk => by
    rcases List.mem_cons.mp hk with rfl | hk1
    · rw [evalSegs, if_pos ((List.pairwise_cons.mp hp).1 k1 (List.mem_cons_self k1 _))]
      exact hermiteEval_left k k1
    · have htail := (List.pairwise_cons.mp hp).2
      have hge : k1.x ≤ k.x := knot_head_le htail hk1
      rw [evalSegs, if_neg (not_lt.mpr hge)]
      exact evalSegs_knot k1 (k2 :: rest) htail (by simp) k hk1

/-- The interval search always evaluates the Hermite polynomial of some
adjacent pair of knots — in particular it is total, extrapolating with the
first/last segment outside the knot range. -/
theorem evalSegs_adjacent :
    ∀ (k0 : Knot) (l : List Knot), l ≠ [] → ∀ t : ℚ,
      ∃ a b l1 l2, k0 :: l = l1 ++ a :: b :: l2 ∧ evalSegs k0 l t = hermiteEval a b t
  | _, [], hne, _ => absurd rfl hne
  | k0, [k1], _, t => ⟨k0, k1, [], [], rfl, rfl⟩
  | k0, k1 :: k2 :: rest, _, t => by
    by_cases h : t < k1.x
    · exact ⟨k0, k1, [], k2 :: rest, rfl, by rw [evalSegs, if_pos h]⟩
    · obtain ⟨a, b, l1, l2, hdec, hev⟩ := evalSegs_adjacent k1 (k2 :: rest) (by simp) t
      exact ⟨a, b, k0 :: l1, l2, by rw [List.cons_append, ← hdec],
        by rw [evalSegs, if_neg h]; exact hev⟩

/-- Pass-through at each knot, stated on the full interpolant call. -/
theorem ivAt_knot {knots : List Knot}
    (hp : List.Pairwise (fun a b => a.x < b.x) knots) (hlen : 2 ≤ knots.length)
    {k : Knot} (hk : k ∈ knots) : ivAt knots k.x = k.y := by
  cases knots with
  | nil => simp at hlen
  | cons k0 rest =>
    cases rest with
    | nil => simp at hlen
    | cons k1 r2 => exact evalSegs_knot k0 (k1 :: r2) hp (by simp) k hk

/-- Totality of the interpolant call: it evaluates an adjacent-pair Hermite
polynomial for every real strike. -/
theorem ivAt_adjacent {knots : List Knot} (hlen : 2 ≤ knots.length) (t : ℚ) :
    ∃ a b l1 l2, knots = l1 ++ a :: b :: l2 ∧ ivAt knots t = hermiteEval a b t := by
  cases knots with
  | nil => simp at hlen
  | cons k0 rest =>
    cases rest with
    | nil => simp at hlen
    | cons k1 r2 =>
      obtain ⟨a, b, l1, l2, hdec, hev⟩ := evalSegs_adjacent k0 (k1 :: r2) (by simp) t
      exact ⟨a, b, l1, l2, hdec, hev⟩

/-- Length of the PCHIP derivative list: one derivative per breakpoint. -/
theorem pchipDerivs_length (xs ys : List ℚ) (hxy : ys.length = xs.length)
    (h2 : 2 ≤ xs.length) : (pchipDerivs xs ys).length = xs.length := by
  have hhk : (List.zipWith (fun a b => a - b) xs.tail xs).length = xs.length - 1 := by
    simp only [List.length_zipWith, List.length_tail]
    omega
  have hmk : (List.zipWith (fun a b => a / b)
      (List.zipWith (fun a b => a - b) ys.tail ys)
      (List.zipWith (fun a b => a - b) xs.tail xs)).length = xs.length - 1 := by
    simp only [List.length_zipWith, List.length_tail]
    omega
  simp only [pchipDerivs]
  cases hcase : List.zipWith (fun a b => a / b)
      (List.zipWith (fun a b => a - b) ys.tail ys)
      (List.zipWith (fun a b => a - b) xs.tail xs) with
  | nil =>
    rw [hcase] at hmk
    simp only [List.length_nil] at hmk
    simp only [List.length_nil]
    omega
  | cons m0 tl =>
    cases tl with
    | nil =>
      rw [hcase] at hmk
      simp only [List.length_cons, List.length_nil] at hmk
      simp only [List.length_cons, List.length_nil]
      omega
    | cons m1 tl2 =>
      rw [hcase] at hmk
      simp only [List.length_cons] at hmk
      simp only [List.length_cons, List.length_append, List.length_zipWith,
        List.length_zip, List.length_tail, List.length_nil, hhk]
      omega

/-- Every sample contributes a knot at its strike with its IV when enough
derivatives are available. -/
theorem mem_zipWith_knots :
    ∀ (s : List Sample) (ds : List ℚ) (a : Sample), a ∈ s → s.length ≤ ds.length →
      ∃ d, (⟨a.1, a.2.1, d⟩ : Knot)
        ∈ List.zipWith (fun (a : Sample) d => (⟨a.1, a.2.1, d⟩ : Knot)) s ds
  | [], _, a, ha, _ => absurd ha (List.not_mem_nil a)
  | b :: s, [], a, ha, hl => by simp at hl
  | b :: s, d :: ds, a, ha, hl => by
    rcases List.mem_cons.mp ha with rfl | ha2
    · exact ⟨d, List.mem_cons_self _ _⟩
    · obtain ⟨d', hd'⟩ := mem_zipWith_knots s ds a ha2 (by
        simp only [List.length_cons] at hl
        omega)
      exact ⟨d', List.mem_cons_of_mem _ hd'⟩

/-- A knot produced by the zip comes from some sample, keeping its strike and
IV. -/
theorem of_mem_zipWith_knots :
    ∀ (s : List Sample) (ds : List ℚ) (k : Knot),
      k ∈ List.zipWith (fun (a : Sample) d => (⟨a.1, a.2.1, d⟩ : Knot)) s ds →
      ∃ a ∈ s, k.x = a.1 ∧ k.y = a.2.1
  | [], _, k, hk => by simp at hk
  | _ :: _, [], k, hk => by simp at hk
  | b :: s, d :: ds, k, hk => by
    rcases List.mem_cons.mp hk with rfl | hk2
    · exact ⟨b, List.mem_cons_self b s, rfl, rfl⟩
    · obtain ⟨a, ha, hx, hy⟩ := of_mem_zipWith_knots s ds k hk2
      exact ⟨a, List.mem_cons_of_mem b ha, hx, hy⟩

/-- Strictly increasing strikes give strictly increasing knot positions. -/
theorem pairwise_zipWith_knots :
    ∀ (s : List Sample) (ds : List ℚ),
      List.Pairwise (fun a b : Sample => a.1 < b.1) s →
      List.Pairwise (fun a b : Knot => a.x < b.x)
        (List.zipWith (fun (a : Sample) d => (⟨a.1, a.2.1, d⟩ : Knot)) s ds)
  | [], _, _ => by simp
  | _ :: _, [], _ => by simp
  | a :: s, d :: ds, hp => by
    simp only [List.zipWith_cons_cons]
    rw [List.pairwise_cons]
    refine ⟨?_, pairwise_zipWith_knots s ds (List.pairwise_cons.mp hp).2⟩
    intro k hk
    obtain ⟨b, hb, hx, _⟩ := of_mem_zipWith_knots s ds k hk
    have := (List.pairwise_cons.mp hp).1 b hb
    simpa [hx] using this

/-- The sorted sample list is pairwise strictly increasing in strike when the
strikes are distinct. -/
theorem sortSamples_pairwise (samples : List Sample)
    (hnodup : (samples.map (fun a => a.1)).Nodup) :
    List.Pairwise (fun a b : Sample => a.1 < b.1) (sortSamples samples) := by
  have hsorted : List.Sorted sampleLe (sortSamples samples) :=
    List.sorted_insertionSort sampleLe samples
  have hperm : List.Perm (sortSamples samples) samples :=
    List.perm_insertionSort sampleLe samples
  have hpermmap : List.Perm ((sortSamples samples).map (fun a => a.1))
      (samples.map (fun a => a.1)) := hperm.map _
  have hnodup2 : ((sortSamples samples).map (fun a => a.1)).Nodup :=
    hpermmap.nodup_iff.mpr hnodup
  have hne : List.Pairwise (fun a b : Sample => a.1 ≠ b.1) (sortSamples samples) :=
    List.pairwise_map.mp hnodup2
  have hand := List.Pairwise.and hsorted hne
  exact hand.imp fun h => lt_of_le_of_ne h.1 h.2

/-- A pairwise strictly increasing sample list passes the strictly-increasing
check. -/
theorem strictlyInc_of_pairwise :
    ∀ (l : List Sample), List.Pairwise (fun a b : Sample => a.1 < b.1) l →
      strictlyInc l = true
  | [], _ => rfl
  | [_], _ => rfl
  | a :: b :: t, hp => by
    rw [strictlyInc, Bool.and_eq_true]
    exact ⟨decide_eq_true ((List.pairwise_cons.mp hp).1 b (List.mem_cons_self b t)),
      strictlyInc_of_pairwise (b :: t) (List.pairwise_cons.mp hp).2⟩

/-- C5: for any strike → (iv, price) mapping with at least two (distinct)
strikes, the IV curve builder succeeds, the built interpolant evaluated at
every sampled strike returns exactly that strike's stored implied volatility,
and at every real strike it evaluates the Hermite polynomial of some adjacent
knot pair — total, extrapolating with an end segment outside the sampled
range rather than failing. -/
theorem iv_interpolator_passes_through_knots (samples : List Sample)
    (hnodup : (samples.map (fun a => a.1)).Nodup) (hlen : 2 ≤ samples.length) :
    ∃ knots, iv_interpolator samples = .ok knots ∧
      (∀ a ∈ samples, ivAt knots a.1 = a.2.1) ∧
      (∀ t : ℚ, ∃ k0 k1 l1 l2, knots = l1 ++ k0 :: k1 :: l2 ∧
        ivAt knots t = hermiteEval k0 k1 t) := by
  have hslen : (sortSamples samples).length = samples.length := by
    rw [sortSamples, List.length_insertionSort]
  have hpair := sortSamples_pairwise samples hnodup
  have hinc := strictlyInc_of_pairwise _ hpair
  have hnot2 : ¬ (sortSamples samples).length < 2 := by omega
  have hok : iv_interpolator samples = .ok (buildKnots (sortSamples samples)) := by
    rw [iv_interpolator, if_neg hnot2, if_pos hinc]
  have hdl : (pchipDerivs ((sortSamples samples).map (fun a => a.1))
      ((sortSamples samples).map (fun a => a.2.1))).length
      = ((sortSamples samples).map (fun a => a.1)).length := by
    apply pchipDerivs_length
    · simp
    · simp only [List.length_map]
      omega
  have hkl : (buildKnots (sortSamples samples)).length = samples.length := by
    rw [buildKnots, List.length_zipWith, hdl]
    simp only [List.length_map, hslen, min_self]
  have hkp : List.Pairwise (fun a b : Knot => a.x < b.x) (buildKnots (sortSamples samples)) :=
    pairwise_zipWith_knots _ _ hpair
  refine ⟨buildKnots (sortSamples samples), hok, ?_, ?_⟩
  · intro a ha
    have has : a ∈ sortSamples samples :=
      ((List.perm_insertionSort sampleLe samples).mem_iff).mpr ha
    obtain ⟨d, hk⟩ := mem_zipWith_knots (sortSamples samples) _ a has (by
      rw [hdl]
      simp)
    have := ivAt_knot hkp (by omega) hk
    exact this
  · intro t
    exact ivAt_adjacent (by omega) t

/-- C5 witness: a two-strike volatility grid; evaluation at each quoted strike
returns its quoted IV and the curve is an adjacent-segment Hermite evaluation
everywhere. -/
theorem iv_interpolator_passes_through_knots_witness :
    (([((50000 : ℚ), (11/20 : ℚ), (1200 : ℚ)), ((52000 : ℚ), (3/5 : ℚ), (900 : ℚ))] : List Sample).map
      (fun a => a.1)).Nodup ∧
    2 ≤ ([((50000 : ℚ), (11/20 : ℚ), (1200 : ℚ)), ((52000 : ℚ), (3/5 : ℚ), (900 : ℚ))] : List Sample).length ∧
    (∃ knots, iv_interpolator
        [((50000 : ℚ), (11/20 : ℚ), (1200 : ℚ)), ((52000 : ℚ), (3/5 : ℚ), (900 : ℚ))] = .ok knots ∧
      (∀ a ∈ ([((50000 : ℚ), (11/20 : ℚ), (1200 : ℚ)), ((52000 : ℚ), (3/5 : ℚ), (900 : ℚ))] : List Sample),
        ivAt knots a.1 = a.2.1) ∧
      (∀ t : ℚ, ∃ k0 k1 l1 l2, knots = l1 ++ k0 :: k1 :: l2 ∧
        ivAt knots t = hermiteEval k0 k1 t)) :=
  ⟨by norm_num, by norm_num,
    iv_interpolator_passes_through_knots
      [((50000 : ℚ), (11/20 : ℚ), (1200 : ℚ)), ((52000 : ℚ), (3/5 : ℚ), (900 : ℚ))]
      (by norm_num) (by norm_num)⟩

/-!
The reconciliation loop (`main.py`).

`process_strike` and `main_loop` are embedded with the per-cycle network data
as explicit inputs: each cycle's call/put quote dictionaries, index price, and
the per-strike outcome of `pricing.price_option` (a collaborator that never
raises — its body is wrapped in a catch-all returning `None` — so it is
modelled as an `Option`-valued oracle taking the strike's IV and the option
kind).  `asyncio.gather` propagates the first exception raised by any task, so
a raising task aborts the cycle and, as nothing above catches, the whole run;
which of several failing strikes raises first does not change that outcome,
so the concurrent fan-out is modelled as a sequential fold that stops at the
first error.  Python's `round(x, 4)` is modelled as ideal half-even decimal
rounding. -/

/-- Round-half-to-even to an integer, the rounding `round` uses. -/
def roundHalfEven (q : ℚ) : ℤ :=
  let f := ⌊q⌋
  let r := q - (f : ℚ)
  if r < 1/2 then f
  else if 1/2 < r then f + 1
  else if f % 2 = 0 then f else f + 1

/-- Python `round(x, 4)`. -/
def round4 (q : ℚ) : ℚ := (roundHalfEven (q * 10000) : ℚ) / 10000

/-- `pricing.normalize_usd_price_to_currency`: `None` in, `None` out; an
index price of zero would raise `ZeroDivisionError` (uncaught). -/
def normalize_usd_price_to_currency (price index_price : Option ℚ) :
    Except String (Option ℚ) :=
  match price, index_price with
  | none, _ => .ok none
  | _, none => .ok none
  | some p, some i =>
    if i = 0 then .error ("ZeroDivisionError")
    else .ok (some (round4 (p / i)))

/-- One strike's output cell, the entry `process_strike` writes into
`output_dict`. -/
structure Cell where
  call_mark_price : Option ℚ
  deribit_call_mark_price : Option ℚ
  put_mark_price : Option ℚ
  deribit_put_mark_price : Option ℚ
deriving DecidableEq

deriving instance DecidableEq for Except

/-- Python dictionary access `d[strike]` on the quote dictionary (`none`
models `KeyError`). -/
def lookupStrike (d : List Sample) (strike : ℚ) : Option (ℚ × ℚ) :=
  (d.find? (fun a => decide (a.1 = strike))).map (fun a => a.2)

/-- The IV/actual-price resolution at the head of `process_strike` (lines
28-39): quoted IV and mark for a standard strike (a missing key raises
`KeyError`), curve evaluation for an off-grid strike (with `call_iv_fn`
`None` — never built — calling it raises `TypeError`). -/
def resolveIVs (strike : ℚ) (standard_strikes : List ℚ)
    (calls_strike_iv puts_strike_iv : List Sample)
    (call_iv_fn put_iv_fn : Option (List Knot)) :
    Except String (ℚ × ℚ × Option ℚ × Option ℚ) :=
  if strike ∈ standard_strikes then
    match lookupStrike calls_strike_iv strike, lookupStrike puts_strike_iv strike with
    | some cp, some pp => .ok (cp.1, pp.1, some cp.2, some pp.2)
    | _, _ => .error ("KeyError")
  else
    match call_iv_fn, put_iv_fn with
    | some cc, some pc => .ok (ivAt cc strike, ivAt pc strike, none, none)
    | _, _ => .error ("TypeError: NoneType object is not callable")

/-- `main.process_strike`: resolve IVs and actual marks, price both legs via
`pricing.price_option` (the oracle `priceFn`), then normalize — dividing by
the index price for currencies settled in the underlying (`eth`/`btc`, where
`normalize_usd_price_to_currency` passes a `None` through), or plain
`round(x, 4)` otherwise, where a `None` prediction makes `round` raise
`TypeError`.  An `Except.error` is an exception escaping the task and hence,
through `asyncio.gather`, the cycle. -/
def process_strike (currency : String) (strike : ℚ) (standard_strikes : List ℚ)
    (calls_strike_iv puts_strike_iv : List Sample)
    (call_iv_fn put_iv_fn : Option (List Knot)) (index_price : Option ℚ)
    (priceFn : ℚ → OptKind → Option ℚ) : Except String Cell :=
  match resolveIVs strike standard_strikes calls_strike_iv puts_strike_iv
      call_iv_fn put_iv_fn with
  | .error e => .error e
  | .ok (call_iv, put_iv, call_act, put_act) =>
    let call_pred := priceFn call_iv .call
    let put_pred := priceFn put_iv .put
    if lowerStr currency ∈ ["eth", "btc"] then
      match normalize_usd_price_to_currency call_pred index_price,
            normalize_usd_price_to_currency put_pred index_price with
      | .ok cp, .ok pp => .ok ⟨cp, call_act, pp, put_act⟩
      | .error e, _ => .error e
      | _, .error e => .error e
    else
      match call_pred, put_pred with
      | some cp, some pp => .ok ⟨some (round4 cp), call_act, some (round4 pp), put_act⟩
      | _, _ => .error ("TypeError: NoneType cannot be rounded")

/-- Observable milestones of one run of the loop. -/
inductive LoopEvent where
  | snapshotFetched (i : ℕ)
  | resultsSaved (i : ℕ)
deriving DecidableEq

/-- The network data one cycle observes: fresh call/put quote dictionaries,
the index price, and the `pricing.price_option` outcome per
(strike, iv, kind). -/
structure CycleInput where
  call_strike_iv_price_dict : List Sample
  put_strike_iv_price_dict : List Sample
  index_price : Option ℚ
  priceFn : ℚ → ℚ → OptKind → Option ℚ

/-- The per-strike fan-out of one cycle (`asyncio.gather` over
`process_strike` tasks): collect all cells, aborting the cycle on the first
escaping exception. -/
def processAllStrikes (currency : String) (strikes standard_strikes : List ℚ)
    (c : CycleInput) (call_iv_fn put_iv_fn : Option (List Knot)) :
    Except String (List (ℚ × Cell)) :=
  strikes.foldr (fun s acc =>
    match process_strike currency s standard_strikes c.call_strike_iv_price_dict
        c.put_strike_iv_price_dict call_iv_fn put_iv_fn c.index_price (c.priceFn s) with
    | .error e => .error e
    | .ok cell =>
      match acc with
      | .error e => .error e
      | .ok l => .ok ((s, cell) :: l)) (.ok [])

/-- One iteration of the cycle body (`main_loop` lines 88-131, after the
snapshot fetch): rebuild both IV curves when interpolation is needed — an
exception from the curve builder escapes — then process every strike. -/
def run_cycle (currency : String) (strikes standard_strikes : List ℚ)
    (iv_interpolation_needed : Bool) (c : CycleInput) :
    Except String (List (ℚ × Cell)) :=
  match iv_interpolation_needed with
  | true =>
    match iv_interpolator c.call_strike_iv_price_dict with
    | .error e => .error e
    | .ok call_fn =>
      match iv_interpolator c.put_strike_iv_price_dict with
      | .error e => .error e
      | .ok put_fn =>
        processAllStrikes currency strikes standard_strikes c (some call_fn) (some put_fn)
  | false => processAllStrikes currency strikes standard_strikes c none none

/-- The iteration of `for _ in range(number_of_iterations)`: each cycle first
fetches its snapshot (recorded as an event), then runs the body; an escaping
exception ends the run right there, with no result saved for that cycle. -/
def runCyclesFrom (currency : String) (strikes standard_strikes : List ℚ)
    (needInterp : Bool) (cycles : ℕ → CycleInput) :
    ℕ → ℕ → List LoopEvent × Except String Unit
  | _, 0 => ([], .ok ())
  | i, n + 1 =>
    match run_cycle currency strikes standard_strikes needInterp (cycles i) with
    | .error e => ([.snapshotFetched i], .error e)
    | .ok _ =>
      let r := runCyclesFrom currency strikes standard_strikes needInterp cycles (i + 1) n
      (.snapshotFetched i :: .resultsSaved i :: r.1, r.2)

/-- `main.main_loop`: decide once whether any requested strike is off the
standard grid, then run the fixed number of cycles. -/
def main_loop (currency : String) (strikes standard_strikes : List ℚ)
    (cycles : ℕ → CycleInput) (number_of_iterations : ℕ) :
    List LoopEvent × Except String Unit :=
  runCyclesFrom currency strikes standard_strikes
    (strikes.any (fun s => decide (s ∉ standard_strikes))) cycles 0 number_of_iterations

/-- The `__main__` currency whitelist of `main.py` line 152. -/
def supportedCurrencies : List String :=
  ["BTC", "ETH", "SOL_USDC", "XRP_USDC", "BNB_USDC", "PAXG_USDC"]

/-- `int(t1 / t2)` on Python ints: true division then truncation toward zero;
`t2 = 0` raises `ZeroDivisionError` (uncaught, inside `main_loop`). -/
def number_of_iterations (t1 t2 : ℤ) : Option ℤ :=
  if t2 = 0 then none else some (Int.tdiv t1 t2)

/-- The whole program: `__main__` validates only the currency before starting
(`parser.error` aborts); `main_loop` then computes the iteration count —
`range(n)` of a non-positive `n` simply runs zero cycles. -/
def runModel (currency : String) (t1 t2 : ℤ) (strikes standard_strikes : List ℚ)
    (cycles : ℕ → CycleInput) : List LoopEvent × Except String Unit :=
  if upperStr currency ∉ supportedCurrencies then
    ([], .error ("Invalid currency. Supported currencies are: BTC, ETH, SOL_USDC, XRP_USDC, BNB_USDC, PAXG_USDC."))
  else
    match number_of_iterations t1 t2 with
    | none => ([], .error ("ZeroDivisionError"))
    | some n => main_loop currency strikes standard_strikes cycles n.toNat

/-- C3: a pricing failure (price_option returning `None` for a leg) does NOT
always degrade to an absent cell.  For a currency settled in the underlying
(BTC) it does — the cell is written with absent predictions and the run goes
on — but for a stablecoin-settled currency (SOL_USDC) the `else` branch calls
`round(None, 4)`, which raises `TypeError`; the exception escapes
`process_strike`, `asyncio.gather` re-raises it, and the whole run aborts
during the first cycle. -/
theorem process_strike_failure_aborts_run_for_usdc :
    process_strike "SOL_USDC" 20 [20] [(20, 1, 2)] [(20, 1, 3)] none none (some 100)
      (fun _ _ => none) = .error ("TypeError: NoneType cannot be rounded") ∧
    process_strike "BTC" 20 [20] [(20, 1, 2)] [(20, 1, 3)] none none (some 100)
      (fun _ _ => none) = .ok ⟨none, some 2, none, some 3⟩ ∧
    main_loop "SOL_USDC" [20] [20]
      (fun _ => ⟨[(20, 1, 2)], [(20, 1, 3)], some 100, fun _ _ _ => none⟩) 1
      = ([.snapshotFetched 0], .error ("TypeError: NoneType cannot be rounded")) := by
  have hsol : lowerStr "SOL_USDC" ∉ (["eth", "btc"] : List String) := by decide
  have hbtc : lowerStr "BTC" ∈ (["eth", "btc"] : List String) := by decide
  refine ⟨?_, ?_, ?_⟩ <;>
    norm_num [process_strike, resolveIVs, lookupStrike, List.find?,
      normalize_usd_price_to_currency, main_loop, runCyclesFrom,
      run_cycle, processAllStrikes, if_neg hsol, if_pos hbtc] <;>
    decide

/-- C7 counterexample: with one quoted strike and an off-grid requested
strike, the run does abort with the curve builder's error — but only after
cycle 0 has started and fetched its snapshot (the event list is non-empty),
not before any cycle starts as the claim says. -/
theorem iv_curve_failure_happens_inside_first_cycle :
    main_loop "BTC" [52000] [50000]
      (fun _ => ⟨[(50000, 1, 2)], [(50000, 1, 2)], some 100, fun _ _ _ => none⟩) 1
      = ([.snapshotFetched 0], .error ("x must contain at least 2 elements.")) ∧
    ([LoopEvent.snapshotFetched 0] : List LoopEvent) ≠ [] := by
  constructor
  · norm_num [main_loop, runCyclesFrom, run_cycle, iv_interpolator, sortSamples,
      List.insertionSort, List.orderedInsert]
  · decide

/-- C7 (amended): insufficient curve samples (fewer than 2 quoted strikes)
make the IV-curve builder raise, and since nothing catches it the run aborts
— but the failure happens inside the first cycle that needs interpolation,
after that cycle's snapshot fetch and before its results are saved, not
before any cycle starts; a run whose parameters never trigger curve
construction (no off-grid strike, or zero iterations) never signals at
all. -/
theorem iv_curve_degenerate_aborts_during_cycle
    (currency : String) (strikes standard_strikes : List ℚ)
    (cycles : ℕ → CycleInput) (n : ℕ)
    (hn : 1 ≤ n)
    (hoff : ∃ s ∈ strikes, s ∉ standard_strikes)
    (hgrid : (cycles 0).call_strike_iv_price_dict.length < 2) :
    main_loop currency strikes standard_strikes cycles n
      = ([.snapshotFetched 0], .error ("x must contain at least 2 elements.")) := by
  obtain ⟨m, rfl⟩ : ∃ m, n = m + 1 := ⟨n - 1, by omega⟩
  have hany : strikes.any (fun s => decide (s ∉ standard_strikes)) = true := by
    rw [List.any_eq_true]
    obtain ⟨s, hs1, hs2⟩ := hoff
    exact ⟨s, hs1, decide_eq_true hs2⟩
  have hslen : ¬ (sortSamples (cycles 0).call_strike_iv_price_dict).length < 2 → False := by
    intro h
    rw [sortSamples, List.length_insertionSort] at h
    omega
  have herr : iv_interpolator (cycles 0).call_strike_iv_price_dict
      = .error ("x must contain at least 2 elements.") := by
    rw [iv_interpolator, if_pos (by
      rw [sortSamples, List.length_insertionSort]
      exact hgrid)]
  rw [main_loop, hany, runCyclesFrom, run_cycle, herr]

/-- C7 witness: the amended behaviour at the concrete degenerate run. -/
theorem iv_curve_degenerate_aborts_during_cycle_witness :
    (1 : ℕ) ≤ 1 ∧
    (∃ s ∈ ([52000] : List ℚ), s ∉ ([50000] : List ℚ)) ∧
    ((fun _ : ℕ => (⟨[(50000, 1, 2)], [(50000, 1, 2)], some 100, fun _ _ _ => none⟩ : CycleInput)) 0).call_strike_iv_price_dict.length < 2 ∧
    main_loop "BTC" [52000] [50000]
      (fun _ => ⟨[(50000, 1, 2)], [(50000, 1, 2)], some 100, fun _ _ _ => none⟩) 1
      = ([.snapshotFetched 0], .error ("x must contain at least 2 elements.")) :=
  ⟨by norm_num, by norm_num, by norm_num,
    iv_curve_degenerate_aborts_during_cycle "BTC" [52000] [50000]
      (fun _ => ⟨[(50000, 1, 2)], [(50000, 1, 2)], some 100, fun _ _ _ => none⟩) 1
      (by norm_num) (by norm_num) (by norm_num)⟩

/-- C9 counterexample: with a valid currency but a total duration smaller
than the cycle interval, `int(t1/t2) = 0` — violating the claimed
at-least-one-whole-cycle constraint — yet no validation aborts the run: it
completes normally having executed zero cycles. -/
theorem zero_cycle_run_completes_without_error :
    upperStr "BTC" ∈ supportedCurrencies ∧
    number_of_iterations 1 10 = some 0 ∧
    runModel "BTC" 1 10 [20] [20] (fun _ => ⟨[], [], none, fun _ _ _ => none⟩)
      = ([], .ok ()) := by
  refine ⟨by decide, by decide, ?_⟩
  rw [runModel, if_neg (by decide), show number_of_iterations 1 10 = some 0 from by decide]
  rfl

/-- C9 (amended): the currency is validated against the fixed supported set
before anything runs and an invalid currency aborts with a configuration
error; the duration/interval constraint, however, is not validated — a
positive interval with non-positive `int(t1/t2)` yields a run of zero cycles
that completes without error. -/
theorem run_validation_behavior
    (c1 c2 : String) (t1 t2 : ℤ) (strikes standard_strikes : List ℚ)
    (cycles : ℕ → CycleInput)
    (h1 : upperStr c1 ∉ supportedCurrencies)
    (h2 : upperStr c2 ∈ supportedCurrencies)
    (h3 : t2 ≠ 0) (h4 : Int.tdiv t1 t2 ≤ 0) :
    runModel c1 t1 t2 strikes standard_strikes cycles
      = ([], .error ("Invalid currency. Supported currencies are: BTC, ETH, SOL_USDC, XRP_USDC, BNB_USDC, PAXG_USDC.")) ∧
    runModel c2 t1 t2 strikes standard_strikes cycles = ([], .ok ()) := by
  constructor
  · rw [runModel, if_pos h1]
  · rw [runModel, if_neg (not_not_intro h2), number_of_iterations, if_neg h3]
    show main_loop c2 strikes standard_strikes cycles (Int.tdiv t1 t2).toNat = ([], .ok ())
    rw [Int.toNat_of_nonpos h4]
    rw [main_loop, runCyclesFrom]

/-- C9 witness: an unsupported currency aborts; BTC with `t1 = 1, t2 = 10`
(zero whole cycles) completes without error. -/
theorem run_validation_behavior_witness :
    upperStr "DOGE" ∉ supportedCurrencies ∧
    upperStr "BTC" ∈ supportedCurrencies ∧
    (10 : ℤ) ≠ 0 ∧
    Int.tdiv 1 10 ≤ 0 ∧
    runModel "DOGE" 1 10 [20] [20] (fun _ => ⟨[], [], none, fun _ _ _ => none⟩)
      = ([], .error ("Invalid currency. Supported currencies are: BTC, ETH, SOL_USDC, XRP_USDC, BNB_USDC, PAXG_USDC.")) ∧
    runModel "BTC" 1 10 [20] [20] (fun _ => ⟨[], [], none, fun _ _ _ => none⟩)
      = ([], .ok ()) :=
  ⟨by decide, by decide, by decide, by decide,
    (run_validation_behavior "DOGE" "BTC" 1 10 [20] [20]
      (fun _ => ⟨[], [], none, fun _ _ _ => none⟩)
      (by decide) (by decide) (by decide) (by decide)).1,
    (run_validation_behavior "DOGE" "BTC" 1 10 [20] [20]
      (fun _ => ⟨[], [], none, fun _ _ _ => none⟩)
      (by decide) (by decide) (by decide) (by decide)).2⟩
